import Mathlib

/-!
Verification development for the orientation-space sampling pipeline described by
the repository documentation (src/doc/uniform_sampling_of_orientation_space.ipynb)
and its specification.  The library implementing the pipeline is not part of the
repository source tree, so each component is modelled from the specification:
real quantities are embedded as exact rationals, and the externally documented
transcendental forward transforms (cube to ball to rotation, Euler to quaternion,
hypersphere parametrization) are taken as parameters, constrained only by the
properties the specification states about them.
-/

namespace OrientationSampling

/-- A quaternion with rational components (w, x, y, z).  Modelled from the spec:
unit quaternions represent rotations; q and -q denote the same rotation. -/
@[ext]
structure Quat where
  w : ℚ
  x : ℚ
  y : ℚ
  z : ℚ
deriving DecidableEq

/-- The identity quaternion (1, 0, 0, 0). -/
def qone : Quat := ⟨1, 0, 0, 0⟩

/-- The zero quaternion, used only as the base point of the lexicographic order. -/
def qzero : Quat := ⟨0, 0, 0, 0⟩

/-- Hamilton product of two quaternions. -/
def qmul (a b : Quat) : Quat :=
  ⟨a.w * b.w - a.x * b.x - a.y * b.y - a.z * b.z,
   a.w * b.x + a.x * b.w + a.y * b.z - a.z * b.y,
   a.w * b.y - a.x * b.z + a.y * b.w + a.z * b.x,
   a.w * b.z + a.x * b.y - a.y * b.x + a.z * b.w⟩

/-- Componentwise negation; qneg a represents the same rotation as a. -/
def qneg (a : Quat) : Quat := ⟨-a.w, -a.x, -a.y, -a.z⟩

/-- Squared Euclidean norm of a quaternion. -/
def normSq (a : Quat) : ℚ := a.w ^ 2 + a.x ^ 2 + a.y ^ 2 + a.z ^ 2

/-- Inner product of two quaternions; for unit quaternions it is the cosine of
half the relative rotation angle. -/
def qdot (a b : Quat) : ℚ := a.w * b.w + a.x * b.x + a.y * b.y + a.z * b.z

/-- Strict lexicographic order on the components (w, x, y, z).  Modelled from the
spec: the reducer needs a deterministic total tie-break rule (design notes flag
the exact convention as open but mandate a documented deterministic one); the
lexicographic order on components realizes it. -/
def keyLt (a b : Quat) : Prop :=
  a.w < b.w ∨ (a.w = b.w ∧ (a.x < b.x ∨ (a.x = b.x ∧
    (a.y < b.y ∨ (a.y = b.y ∧ a.z < b.z)))))

instance keyLtDec (a b : Quat) : Decidable (keyLt a b) := by
  unfold keyLt; exact inferInstance

theorem keyLt_irrefl (a : Quat) : ¬ keyLt a a := by
  simp [keyLt]

theorem keyLt_trans {a b c : Quat} (h1 : keyLt a b) (h2 : keyLt b c) : keyLt a c := by
  unfold keyLt at h1 h2 ⊢
  obtain h1 | ⟨e1, h1⟩ := h1 <;> obtain h2 | ⟨f1, h2⟩ := h2
  · exact Or.inl (h1.trans h2)
  · exact Or.inl (by rw [← f1]; exact h1)
  · exact Or.inl (by rw [e1]; exact h2)
  · refine Or.inr ⟨e1.trans f1, ?_⟩
    obtain h1 | ⟨e2, h1⟩ := h1 <;> obtain h2 | ⟨f2, h2⟩ := h2
    · exact Or.inl (h1.trans h2)
    · exact Or.inl (by rw [← f2]; exact h1)
    · exact Or.inl (by rw [e2]; exact h2)
    · refine Or.inr ⟨e2.trans f2, ?_⟩
      obtain h1 | ⟨e3, h1⟩ := h1 <;> obtain h2 | ⟨f3, h2⟩ := h2
      · exact Or.inl (h1.trans h2)
      · exact Or.inl (by rw [← f3]; exact h1)
      · exact Or.inl (by rw [e3]; exact h2)
      · exact Or.inr ⟨e3.trans f3, h1.trans h2⟩

theorem keyLt_asymm {a b : Quat} (h1 : keyLt a b) (h2 : keyLt b a) : False :=
  keyLt_irrefl a (keyLt_trans h1 h2)

theorem keyLt_trichot (a b : Quat) : keyLt a b ∨ a = b ∨ keyLt b a := by
  unfold keyLt
  rcases lt_trichotomy a.w b.w with h | h | h
  · exact Or.inl (Or.inl h)
  · rcases lt_trichotomy a.x b.x with h2 | h2 | h2
    · exact Or.inl (Or.inr ⟨h, Or.inl h2⟩)
    · rcases lt_trichotomy a.y b.y with h3 | h3 | h3
      · exact Or.inl (Or.inr ⟨h, Or.inr ⟨h2, Or.inl h3⟩⟩)
      · rcases lt_trichotomy a.z b.z with h4 | h4 | h4
        · exact Or.inl (Or.inr ⟨h, Or.inr ⟨h2, Or.inr ⟨h3, h4⟩⟩⟩)
        · exact Or.inr (Or.inl (Quat.ext h h2 h3 h4))
        · exact Or.inr (Or.inr (Or.inr ⟨h.symm, Or.inr ⟨h2.symm, Or.inr ⟨h3.symm, h4⟩⟩⟩))
      · exact Or.inr (Or.inr (Or.inr ⟨h.symm, Or.inr ⟨h2.symm, Or.inl h3⟩⟩))
    · exact Or.inr (Or.inr (Or.inr ⟨h.symm, Or.inl h2⟩))
  · exact Or.inr (Or.inr (Or.inl h))

/-- Sign canonicalization.  Modelled from the spec: every sampler and the reducer
force w ≥ 0; when w = 0 (a 180 degree rotation, where q and -q both have w = 0)
the deterministic lexicographic rule decides the representative. -/
def canonSign (a : Quat) : Quat := if keyLt a qzero then qneg a else a

theorem qneg_qneg (a : Quat) : qneg (qneg a) = a := by
  ext <;> simp [qneg]

theorem qneg_qzero : qneg qzero = qzero := by
  ext <;> simp [qneg, qzero]

theorem keyLt_qneg_qzero (a : Quat) : keyLt (qneg a) qzero ↔ keyLt qzero a := by
  simp only [keyLt, qneg, qzero, neg_lt_zero, neg_eq_zero, @eq_comm ℚ 0]

theorem canonSign_qneg (a : Quat) : canonSign (qneg a) = canonSign a := by
  rcases keyLt_trichot a qzero with h | h | h
  · have hn : ¬ keyLt (qneg a) qzero := by
      rw [keyLt_qneg_qzero]
      intro h2
      exact keyLt_asymm h h2
    simp [canonSign, h, hn]
  · subst h
    simp [canonSign, keyLt_irrefl, qneg_qzero]
  · have hp : ¬ keyLt a qzero := fun h2 => keyLt_asymm h h2
    have hn : keyLt (qneg a) qzero := (keyLt_qneg_qzero a).mpr h
    simp [canonSign, hp, hn, qneg_qneg]

theorem canonSign_cases (a : Quat) : canonSign a = a ∨ canonSign a = qneg a := by
  unfold canonSign
  by_cases h : keyLt a qzero <;> simp [h]

theorem canonSign_canonSign (a : Quat) : canonSign (canonSign a) = canonSign a := by
  rcases canonSign_cases a with h | h
  · rw [h, h]
  · rw [h, canonSign_qneg, h]

theorem canonSign_w_nonneg (a : Quat) : 0 ≤ (canonSign a).w := by
  unfold canonSign
  by_cases h : keyLt a qzero
  · simp only [h, if_true]
    simp only [keyLt, qzero] at h
    rcases h with h | ⟨e, _⟩
    · simp only [qneg]
      linarith
    · simp [qneg, e]
  · simp only [h, if_false]
    simp only [keyLt, qzero] at h
    push_neg at h
    exact h.1

theorem normSq_qneg (a : Quat) : normSq (qneg a) = normSq a := by
  simp only [normSq, qneg]
  ring

theorem normSq_canonSign (a : Quat) : normSq (canonSign a) = normSq a := by
  rcases canonSign_cases a with h | h <;> rw [h]
  exact normSq_qneg a

theorem qmul_assoc (a b c : Quat) : qmul (qmul a b) c = qmul a (qmul b c) := by
  ext <;> simp only [qmul] <;> ring

theorem qmul_qone (a : Quat) : qmul a qone = a := by
  ext <;> simp [qmul, qone]

theorem qone_qmul (a : Quat) : qmul qone a = a := by
  ext <;> simp [qmul, qone]

theorem qmul_qneg_right (a b : Quat) : qmul a (qneg b) = qneg (qmul a b) := by
  ext <;> simp only [qmul, qneg] <;> ring

theorem qmul_qneg_left (a b : Quat) : qmul (qneg a) b = qneg (qmul a b) := by
  ext <;> simp only [qmul, qneg] <;> ring

theorem normSq_qmul (a b : Quat) : normSq (qmul a b) = normSq a * normSq b := by
  simp only [normSq, qmul]
  ring

theorem qdot_comm (a b : Quat) : qdot a b = qdot b a := by
  simp only [qdot]
  ring

theorem qdot_self (a : Quat) : qdot a a = normSq a := by
  simp only [qdot, normSq]
  ring

/-- Fold selecting the maximal element (under keyLt) of m :: l: the orbit member
with the largest scalar part w, hence the smallest rotation angle, ties broken
lexicographically. -/
def pick (m : Quat) (l : List Quat) : Quat :=
  l.foldl (fun a r => if keyLt a r then r else a) m

/-- The selected representative of a candidate list, none when the list is empty. -/
def bestOf : List Quat → Option Quat
  | [] => none
  | r :: rs => some (pick r rs)

theorem pick_mem : ∀ (l : List Quat) (m : Quat), pick m l ∈ m :: l := by
  intro l
  induction l with
  | nil => intro m; simp [pick]
  | cons r rs ih =>
    intro m
    have hstep : pick m (r :: rs) = pick (if keyLt m r then r else m) rs := rfl
    rw [hstep]
    by_cases hk : keyLt m r
    · simp only [hk, if_true]
      rcases List.mem_cons.mp (ih r) with h | h
      · rw [h]
        exact List.mem_cons_of_mem m (List.mem_cons_self r rs)
      · exact List.mem_cons_of_mem m (List.mem_cons_of_mem r h)
    · simp only [hk, if_false]
      rcases List.mem_cons.mp (ih m) with h | h
      · rw [h]
        exact List.mem_cons_self m (r :: rs)
      · exact List.mem_cons_of_mem m (List.mem_cons_of_mem r h)

theorem pick_not_lt : ∀ (l : List Quat) (m : Quat),
    ∀ x ∈ m :: l, ¬ keyLt (pick m l) x := by
  intro l
  induction l with
  | nil =>
    intro m x hx
    rw [List.mem_singleton] at hx
    subst hx
    exact keyLt_irrefl x
  | cons r rs ih =>
    intro m x hx
    have hstep : pick m (r :: rs) = pick (if keyLt m r then r else m) rs := rfl
    rw [hstep]
    rcases List.mem_cons.mp hx with hx | hx
    · subst hx
      by_cases hk : keyLt x r
      · simp only [hk, if_true]
        intro hlt
        exact (ih r r (List.mem_cons_self r rs)) (keyLt_trans hlt hk)
      · simp only [hk, if_false]
        exact ih x x (List.mem_cons_self x rs)
    · rcases List.mem_cons.mp hx with hx | hx
      · subst hx
        by_cases hk : keyLt m x
        · simp only [hk, if_true]
          exact ih x x (List.mem_cons_self x rs)
        · simp only [hk, if_false]
          intro hlt
          rcases keyLt_trichot m x with h2 | h2 | h2
          · exact hk h2
          · subst h2
            exact (ih m m (List.mem_cons_self m rs)) hlt
          · exact (ih m m (List.mem_cons_self m rs)) (keyLt_trans hlt h2)
      · by_cases hk : keyLt m r
        · simp only [hk, if_true]
          exact ih r x (List.mem_cons_of_mem r hx)
        · simp only [hk, if_false]
          exact ih m x (List.mem_cons_of_mem m hx)

theorem max_unique {p q : Quat} {l : List Quat} (hp : p ∈ l)
    (hpmax : ∀ x ∈ l, ¬ keyLt p x) (hq : q ∈ l)
    (hqmax : ∀ x ∈ l, ¬ keyLt q x) : p = q := by
  rcases keyLt_trichot p q with h | h | h
  · exact absurd h (hpmax q hq)
  · exact h
  · exact absurd h (hqmax p hp)

theorem bestOf_eq_some {l : List Quat} {p : Quat} (hl : l ≠ [])
    (hmem : p ∈ l) (hmax : ∀ x ∈ l, ¬ keyLt p x) : bestOf l = some p := by
  cases l with
  | nil => exact absurd rfl hl
  | cons r rs =>
    simp only [bestOf, Option.some_inj]
    exact max_unique (pick_mem rs r) (pick_not_lt rs r) hmem hmax

theorem bestOf_mem : ∀ {l : List Quat} {p : Quat}, bestOf l = some p → p ∈ l := by
  intro l p h
  cases l with
  | nil => simp [bestOf] at h
  | cons r rs =>
    simp only [bestOf, Option.some_inj] at h
    exact h ▸ pick_mem rs r

theorem bestOf_max : ∀ {l : List Quat} {p : Quat}, bestOf l = some p →
    ∀ x ∈ l, ¬ keyLt p x := by
  intro l p h
  cases l with
  | nil => simp [bestOf] at h
  | cons r rs =>
    simp only [bestOf, Option.some_inj] at h
    exact h ▸ pick_not_lt rs r

theorem bestOf_perm {l l2 : List Quat} (h : l.Perm l2) : bestOf l = bestOf l2 := by
  cases hl : bestOf l with
  | none =>
    cases l with
    | nil =>
      have : l2 = [] := List.Perm.nil_eq h |>.symm
      simp [this, bestOf]
    | cons r rs => simp [bestOf] at hl
  | some p =>
    have hmem : p ∈ l2 := h.mem_iff.mp (bestOf_mem hl)
    have hmax : ∀ x ∈ l2, ¬ keyLt p x := fun x hx =>
      bestOf_max hl x (h.mem_iff.mpr hx)
    have hne : l2 ≠ [] := by
      intro h2
      subst h2
      simp at hmem
    exact (bestOf_eq_some hne hmem hmax).symm

/-- The symmetry orbit of q: each operator applied on the left, sign canonicalized.
Modelled from the spec: the reducer computes the symmetry-equivalent orbit
of each candidate. -/
def orbit (G : List Quat) (q : Quat) : List Quat :=
  G.map (fun g => canonSign (qmul g q))

/-- The canonical representative of the symmetry class of q: the orbit member
with the smallest rotation angle (largest w), ties broken lexicographically.
Modelled from the spec: the reducer selects the orbit member satisfying the
fundamental-zone membership test with a deterministic tie-break. -/
def canonical (G : List Quat) (q : Quat) : Quat :=
  (bestOf (orbit G q)).getD (canonSign q)

theorem canonSign_qmul_left (a b : Quat) :
    canonSign (qmul (canonSign a) b) = canonSign (qmul a b) := by
  rcases canonSign_cases a with h | h <;> rw [h]
  rw [qmul_qneg_left, canonSign_qneg]

theorem canonSign_qmul_right (a b : Quat) :
    canonSign (qmul a (canonSign b)) = canonSign (qmul a b) := by
  rcases canonSign_cases b with h | h <;> rw [h]
  rw [qmul_qneg_right, canonSign_qneg]

theorem orbit_canonSign (G : List Quat) (q : Quat) :
    orbit G (canonSign q) = orbit G q := by
  unfold orbit
  exact List.map_congr_left fun g _ => canonSign_qmul_right g q

theorem orbit_qneg (G : List Quat) (q : Quat) : orbit G (qneg q) = orbit G q := by
  unfold orbit
  refine List.map_congr_left fun g _ => ?_
  rw [qmul_qneg_right, canonSign_qneg]

/-- Closure of the operator set, phrased as: right translation by any member
permutes the (sign-canonicalized) operator set.  This is the group property the
spec requires of a symmetry operator set. -/
def GroupLike (G : List Quat) : Prop :=
  ∀ g ∈ G, (G.map fun h => canonSign (qmul h g)).Perm G

theorem orbit_perm {G : List Quat} (hG : GroupLike G) {g : Quat} (hg : g ∈ G)
    (q : Quat) : (orbit G (canonSign (qmul g q))).Perm (orbit G q) := by
  have h1 : orbit G (canonSign (qmul g q)) =
      (G.map fun h => canonSign (qmul h g)).map fun k => canonSign (qmul k q) := by
    unfold orbit
    rw [List.map_map]
    refine List.map_congr_left fun h _ => ?_
    show canonSign (qmul h (canonSign (qmul g q))) =
      canonSign (qmul (canonSign (qmul h g)) q)
    rw [canonSign_qmul_right, canonSign_qmul_left, qmul_assoc]
  rw [h1]
  exact List.Perm.map _ (hG g hg)

theorem canonical_perm {G : List Quat} (hG : G ≠ []) {q r : Quat}
    (h : (orbit G q).Perm (orbit G r)) : canonical G q = canonical G r := by
  unfold canonical
  rw [bestOf_perm h]
  cases hb : bestOf (orbit G r) with
  | none =>
    exfalso
    cases hGc : G with
    | nil => exact hG hGc
    | cons g gs =>
      rw [hGc] at hb
      simp [orbit, bestOf] at hb
  | some p => simp

theorem canonical_equiv {G : List Quat} (hG : GroupLike G) {g : Quat}
    (hg : g ∈ G) (q : Quat) : canonical G (canonSign (qmul g q)) = canonical G q :=
  canonical_perm (List.ne_nil_of_mem hg) (orbit_perm hG hg q)

theorem canonical_mem {G : List Quat} (hG : G ≠ []) (q : Quat) :
    canonical G q ∈ orbit G q := by
  unfold canonical
  cases hGc : G with
  | nil => exact absurd hGc hG
  | cons g gs =>
    have : orbit (g :: gs) q = canonSign (qmul g q) :: orbit gs q := rfl
    rw [this, bestOf]
    simpa using pick_mem (orbit gs q) (canonSign (qmul g q))

theorem canonical_max {G : List Quat} (hG : G ≠ []) (q : Quat) :
    ∀ x ∈ orbit G q, ¬ keyLt (canonical G q) x := by
  unfold canonical
  cases hGc : G with
  | nil => exact absurd hGc hG
  | cons g gs =>
    have : orbit (g :: gs) q = canonSign (qmul g q) :: orbit gs q := rfl
    rw [this, bestOf]
    simpa using pick_not_lt (orbit gs q) (canonSign (qmul g q))

theorem canonical_idem {G : List Quat} (hG : GroupLike G) (hne : G ≠ [])
    (q : Quat) : canonical G (canonical G q) = canonical G q := by
  have hmem : canonical G q ∈ orbit G q := canonical_mem hne q
  obtain ⟨g, hg, hEq⟩ := List.mem_map.mp hmem
  calc canonical G (canonical G q) = canonical G (canonSign (qmul g q)) := by rw [hEq]
    _ = canonical G q := canonical_equiv hG hg q

theorem canonical_normSq {G : List Quat} (hne : G ≠ [])
    (hGu : ∀ g ∈ G, normSq g = 1) {q : Quat} (hq : normSq q = 1) :
    normSq (canonical G q) = 1 := by
  obtain ⟨g, hg, hEq⟩ := List.mem_map.mp (canonical_mem hne q)
  rw [← hEq, normSq_canonSign, normSq_qmul, hGu g hg, hq, one_mul]

/-- The error kinds of the pipeline.  Modelled from the spec (section 7). -/
inductive Err where
  | InvalidResolution
  | InvalidParameter
  | ConflictingParameters
  | UnknownMethod
  | InvalidSymmetryGroup
  | UnresolvableSpecifier
deriving DecidableEq

/-- Symmetry equivalence: some operator carries a onto b (up to quaternion sign). -/
def symmEquiv (G : List Quat) (a b : Quat) : Prop :=
  ∃ g ∈ G, canonSign (qmul g a) = canonSign b

instance symmEquivDec (G : List Quat) (a b : Quat) : Decidable (symmEquiv G a b) := by
  unfold symmEquiv; exact inferInstance

/-- Two quaternions count as numerically duplicate when their inner product
reaches the threshold t; for unit quaternions, t = cos(ε/2) expresses a relative
rotation angle of at most the fixed internal tolerance ε. -/
def close (t : ℚ) (a b : Quat) : Prop := t ≤ qdot a b

instance closeDec (t : ℚ) (a b : Quat) : Decidable (close t a b) := by
  unfold close; exact inferInstance

theorem close_symm {t : ℚ} {a b : Quat} (h : close t a b) : close t b a := by
  unfold close at h ⊢
  rw [qdot_comm]
  exact h

/-- One reduction step.  Modelled from the spec: replace the candidate by the
canonical representative of its orbit; drop it when an already retained
representative is within the tolerance, keep it otherwise. -/
def reduceStep (G : List Quat) (t : ℚ) (acc : List Quat) (q : Quat) : List Quat :=
  let c := canonical G q
  if acc.any (fun r => decide (close t r c)) then acc else acc ++ [c]

/-- The Fundamental Zone Reducer on a raw candidate sequence, without the
operator-set validation. -/
def reduceCore (G : List Quat) (t : ℚ) (S : List Quat) : List Quat :=
  S.foldl (reduceStep G t) []

/-- The Fundamental Zone Reducer.  Modelled from the spec: fails with
InvalidSymmetryGroup when the operator set is empty or misses the identity;
otherwise it retains one canonical representative per equivalence class,
dropping numerical duplicates. -/
def fzReduce (G : List Quat) (t : ℚ) (S : List Quat) : Except Err (List Quat) :=
  if qone ∈ G then .ok (reduceCore G t S) else .error .InvalidSymmetryGroup

theorem reduceStep_cases (G : List Quat) (t : ℚ) (acc : List Quat) (q : Quat) :
    reduceStep G t acc q = acc ∨
      (reduceStep G t acc q = acc ++ [canonical G q] ∧
        ∀ r ∈ acc, ¬ close t r (canonical G q)) := by
  unfold reduceStep
  by_cases h : acc.any (fun r => decide (close t r (canonical G q))) = true
  · rw [if_pos h]
    exact Or.inl rfl
  · rw [if_neg h]
    refine Or.inr ⟨rfl, fun r hr hc => h ?_⟩
    rw [List.any_eq_true]
    exact ⟨r, hr, decide_eq_true hc⟩

/-- The retained prefix stays pairwise separated and consists of canonical
representatives of input candidates. -/
theorem reduceCore_invariant (G : List Quat) (t : ℚ) :
    ∀ (L acc : List Quat),
      (∀ r ∈ acc, ∃ s, r = canonical G s) →
      acc.Pairwise (fun a b => ¬ close t a b) →
      (∀ r ∈ L.foldl (reduceStep G t) acc, ∃ s, r = canonical G s) ∧
        (L.foldl (reduceStep G t) acc).Pairwise (fun a b => ¬ close t a b) := by
  intro L
  induction L with
  | nil => intro acc h1 h2; exact ⟨h1, h2⟩
  | cons q L ih =>
    intro acc h1 h2
    rw [List.foldl_cons]
    rcases reduceStep_cases G t acc q with h | ⟨h, hsep⟩
    · rw [h]
      exact ih acc h1 h2
    · rw [h]
      refine ih _ ?_ ?_
      · intro r hr
        rcases List.mem_append.mp hr with hr | hr
        · exact h1 r hr
        · rw [List.mem_singleton] at hr
          exact ⟨q, hr⟩
      · rw [List.pairwise_append]
        refine ⟨h2, List.pairwise_singleton _ _, ?_⟩
        intro a ha b hb
        rw [List.mem_singleton] at hb
        subst hb
        exact hsep a ha

/-- Pairwise separation of the full reducer output, in both orders. -/
theorem reduceCore_separated (G : List Quat) (t : ℚ) (S : List Quat) :
    ∀ a ∈ reduceCore G t S, ∀ b ∈ reduceCore G t S, a ≠ b → ¬ close t a b := by
  have hsym : Symmetric (fun a b => ¬ close t a b) := by
    intro x y hxy hc
    exact hxy (close_symm hc)
  have h := (reduceCore_invariant G t S [] (by simp) (by simp)).2
  intro a ha b hb hne
  exact List.Pairwise.forall hsym h ha hb hne

/-- Every retained element is the canonical representative of its own class. -/
theorem reduceCore_canonical {G : List Quat} (hG : GroupLike G) (hne : G ≠ [])
    (t : ℚ) (S : List Quat) :
    ∀ a ∈ reduceCore G t S, canonical G a = a := by
  intro a ha
  obtain ⟨s, hs⟩ := (reduceCore_invariant G t S [] (by simp) (by simp)).1 a ha
  rw [hs, canonical_idem hG hne]

/-- Distinct retained elements are never symmetry-equivalent. -/
theorem reduceCore_not_equiv {G : List Quat} (hG : GroupLike G) (hne : G ≠ [])
    (t : ℚ) (S : List Quat) :
    ∀ a ∈ reduceCore G t S, ∀ b ∈ reduceCore G t S, a ≠ b → ¬ symmEquiv G a b := by
  intro a ha b hb hab hEquiv
  obtain ⟨g, hg, hgEq⟩ := hEquiv
  have h1 : canonical G a = canonical G b := by
    calc canonical G a = canonical G (canonSign (qmul g a)) :=
          (canonical_equiv hG hg a).symm
      _ = canonical G (canonSign b) := by rw [hgEq]
      _ = canonical G b := canonical_perm hne (by rw [orbit_canonSign])
  rw [reduceCore_canonical hG hne t S a ha, reduceCore_canonical hG hne t S b hb] at h1
  exact hab h1

/-- Reducing an already separated list of canonical representatives appends it
unchanged to the accumulator. -/
theorem reduceCore_fixed (G : List Quat) (t : ℚ) :
    ∀ (L acc : List Quat),
      (∀ a ∈ L, canonical G a = a) →
      L.Pairwise (fun a b => ¬ close t a b) →
      (∀ r ∈ acc, ∀ a ∈ L, ¬ close t r a) →
      L.foldl (reduceStep G t) acc = acc ++ L := by
  intro L
  induction L with
  | nil => intro acc _ _ _; simp
  | cons q L ih =>
    intro acc hcan hpw hcross
    rw [List.foldl_cons]
    have hq : canonical G q = q := hcan q (List.mem_cons_self q L)
    have hnot : ¬ (acc.any (fun r => decide (close t r (canonical G q))) = true) := by
      intro hany
      obtain ⟨r, hr, hd⟩ := List.any_eq_true.mp hany
      rw [hq] at hd
      exact hcross r hr q (List.mem_cons_self q L) (of_decide_eq_true hd)
    have hstep : reduceStep G t acc q = acc ++ [q] := by
      simp only [reduceStep]
      rw [if_neg hnot, hq]
    rw [hstep]
    have hrec := ih (acc ++ [q]) (fun a ha => hcan a (List.mem_cons_of_mem q ha))
      ((List.pairwise_cons.mp hpw).2) ?_
    · rw [hrec, List.append_assoc]
      rfl
    · intro r hr a ha
      rcases List.mem_append.mp hr with hr | hr
      · exact hcross r hr a (List.mem_cons_of_mem q ha)
      · rw [List.mem_singleton] at hr
        subst hr
        exact (List.pairwise_cons.mp hpw).1 a ha

/-- Idempotence of the reduction pass. -/
theorem reduceCore_idem {G : List Quat} (hG : GroupLike G) (hne : G ≠ [])
    (t : ℚ) (S : List Quat) :
    reduceCore G t (reduceCore G t S) = reduceCore G t S := by
  have h1 := reduceCore_canonical hG hne t S
  have h2 := (reduceCore_invariant G t S [] (by simp) (by simp)).2
  have h3 := reduceCore_fixed G t (reduceCore G t S) [] h1 h2 (by simp)
  simpa [reduceCore] using h3

theorem normSq_qone : normSq qone = 1 := by
  simp [normSq, qone]

theorem canonSign_qone : canonSign qone = qone := by
  unfold canonSign
  rw [if_neg]
  decide

/-- No unit quaternion lies strictly above the identity in the key order. -/
theorem keyLt_qone {x : Quat} (hx : normSq x = 1) : ¬ keyLt qone x := by
  intro h
  simp only [keyLt, qone] at h
  simp only [normSq] at hx
  rcases h with h | ⟨e, h⟩
  · nlinarith [sq_nonneg x.x, sq_nonneg x.y, sq_nonneg x.z,
      mul_pos (by linarith : (0:ℚ) < x.w - 1) (by linarith : (0:ℚ) < x.w + 1)]
  · have hxx : x.x = 0 := by nlinarith [sq_nonneg x.x, sq_nonneg x.y, sq_nonneg x.z]
    have hyy : x.y = 0 := by nlinarith [sq_nonneg x.x, sq_nonneg x.y, sq_nonneg x.z]
    have hzz : x.z = 0 := by nlinarith [sq_nonneg x.x, sq_nonneg x.y, sq_nonneg x.z]
    rcases h with h | ⟨e2, h | ⟨e3, h⟩⟩ <;> linarith

/-- The identity is the canonical representative of its own class. -/
theorem canonical_qone {G : List Quat} (hGone : qone ∈ G)
    (hGu : ∀ g ∈ G, normSq g = 1) : canonical G qone = qone := by
  have hne : G ≠ [] := List.ne_nil_of_mem hGone
  have hmem : qone ∈ orbit G qone :=
    List.mem_map.mpr ⟨qone, hGone, by rw [qmul_qone, canonSign_qone]⟩
  have hmax : ∀ x ∈ orbit G qone, ¬ keyLt qone x := by
    intro x hx
    obtain ⟨g, hg, hEq⟩ := List.mem_map.mp hx
    have hu : normSq x = 1 := by
      rw [← hEq, normSq_canonSign, normSq_qmul, hGu g hg, normSq_qone, one_mul]
    exact keyLt_qone hu
  have hone : orbit G qone ≠ [] := by
    intro hcon
    exact hne (List.map_eq_nil_iff.mp hcon)
  unfold canonical
  rw [bestOf_eq_some hone hmem hmax]
  rfl

/-- When the raw sequence starts with the identity, the reduction keeps it as the
first element and never retains a second copy. -/
theorem reduceCore_keep_qone (G : List Quat) (t : ℚ) (ht : t ≤ 1) :
    ∀ (L acc : List Quat), acc.head? = some qone → acc.count qone = 1 →
      (L.foldl (reduceStep G t) acc).head? = some qone ∧
        (L.foldl (reduceStep G t) acc).count qone = 1 := by
  intro L
  induction L with
  | nil => intro acc h1 h2; exact ⟨h1, h2⟩
  | cons q L ih =>
    intro acc h1 h2
    rw [List.foldl_cons]
    rcases reduceStep_cases G t acc q with h | ⟨h, hsep⟩
    · rw [h]
      exact ih acc h1 h2
    · rw [h]
      have hqmem : qone ∈ acc := by
        cases acc with
        | nil => simp at h1
        | cons a as =>
          simp only [List.head?_cons, Option.some_inj] at h1
          rw [h1]
          exact List.mem_cons_self qone as
      have hcne : canonical G q ≠ qone := by
        intro hEq
        refine hsep qone hqmem ?_
        rw [hEq]
        unfold close
        rw [qdot_self, normSq_qone]
        exact ht
      refine ih (acc ++ [canonical G q]) ?_ ?_
      · cases acc with
        | nil => simp at h1
        | cons a as => simpa using h1
      · rw [List.count_append, h2]
        have : List.count qone [canonical G q] = 0 :=
          List.count_eq_zero.mpr (by simpa using fun hcon => hcne hcon.symm)
        rw [this]

/-- Lower endpoint 0.03732 of the cubochoric resolution formula domain (degrees). -/
def thetaMin : ℚ := 3732 / 100000

/-- Empirical numerator 131.97049 of the cubochoric resolution formula. -/
def cubochoricCoeff : ℚ := 13197049 / 100000

/-- Resolution Translator, cubochoric branch.  Modelled from the spec:
N = floor(131.97049 / (θ - 0.03732)) for θ > 0.03732, otherwise the call fails
with InvalidResolution; a pure function with no side effects. -/
def cubochoricSteps (θ : ℚ) : Except Err ℕ :=
  if thetaMin < θ then .ok (Int.toNat ⌊cubochoricCoeff / (θ - thetaMin)⌋)
  else .error .InvalidResolution

/-- Number of cubochoric raw grid points for semi-edge step count n. -/
def cubochoricGridCount (n : ℕ) : ℕ := (2 * n + 1) ^ 3

/-- Integer grid coordinates -N..N along one axis of the cube. -/
def gridRange (N : ℕ) : List ℤ :=
  (List.range (2 * N + 1)).map (fun i => Int.ofNat i - Int.ofNat N)

/-- The uniform grid of the cube with N steps per semi-edge: (2N+1)^3 points. -/
def cubeGrid (N : ℕ) : List (ℤ × ℤ × ℤ) :=
  (gridRange N).flatMap (fun i => (gridRange N).flatMap (fun j =>
    (gridRange N).map (fun k => (i, j, k))))

theorem gridRange_length (N : ℕ) : (gridRange N).length = 2 * N + 1 := by
  unfold gridRange
  rw [List.length_map, List.length_range]

theorem cubeGrid_length (N : ℕ) : (cubeGrid N).length = cubochoricGridCount N := by
  unfold cubeGrid cubochoricGridCount
  rw [List.length_flatMap]
  simp only [Function.comp_def]
  have hinner : ∀ i : ℤ,
      ((gridRange N).flatMap (fun j => (gridRange N).map (fun k => (i, j, k)))).length
        = (2 * N + 1) * (2 * N + 1) := by
    intro i
    rw [List.length_flatMap]
    simp only [Function.comp_def]
    have hmap : ((gridRange N).map fun j =>
        ((gridRange N).map fun k => (i, j, k)).length)
          = (gridRange N).map (fun _ => 2 * N + 1) := by
      refine List.map_congr_left fun j _ => ?_
      rw [List.length_map, gridRange_length]
    rw [hmap, List.map_const', List.sum_replicate, smul_eq_mul, gridRange_length]
  have houter : ((gridRange N).map fun i =>
      ((gridRange N).flatMap fun j => (gridRange N).map fun k => (i, j, k)).length)
        = (gridRange N).map (fun _ => (2 * N + 1) * (2 * N + 1)) :=
    List.map_congr_left fun i _ => hinner i
  rw [houter, List.map_const', List.sum_replicate, smul_eq_mul, gridRange_length]
  ring

/-- Cubochoric Sampler core.  Modelled from the spec: map every cube grid point
through the cube-to-ball-to-rotation forward transform, canonicalize the
quaternion sign, collapse duplicates.  The transform itself is documented in
external references and is not part of this repository, so it enters as the
parameter f. -/
def cubochoricSampleRaw (f : ℤ × ℤ × ℤ → Quat) (N : ℕ) : List Quat :=
  ((cubeGrid N).map (fun p => canonSign (f p))).dedup

/-- Cubochoric Sampler entry taking the raw density parameter: a negative or
non-integer semi-edge step count fails eagerly with InvalidParameter, returning
no partial result. -/
def cubochoricSample (f : ℤ × ℤ × ℤ → Quat) (n : ℚ) : Except Err (List Quat) :=
  if n.den = 1 ∧ 0 ≤ n.num then .ok (cubochoricSampleRaw f n.num.toNat)
  else .error .InvalidParameter

/-- The Euler angle index grid with the given step counts per axis. -/
def eulerGrid (na nb nc : ℕ) : List (ℕ × ℕ × ℕ) :=
  (List.range na).flatMap (fun i => (List.range nb).flatMap (fun j =>
    (List.range nc).map (fun k => (i, j, k))))

/-- Haar-Euler Sampler.  Modelled from the spec: a grid of Euler angle triples
(uniform in the outer angles, cos-weighted in the middle one) converted through
the Euler-to-quaternion composition e; the trigonometric conversion is external
to this repository, so it enters as the parameter e.  Sign canonicalized, pole
duplicates collapsed. -/
def haarEulerSampleRaw (e : ℕ × ℕ × ℕ → Quat) (na nb nc : ℕ) : List Quat :=
  ((eulerGrid na nb nc).map (fun p => canonSign (e p))).dedup

/-- Quaternion-Space Sampler.  Modelled from the spec: layered subdivision points
on the 3-sphere produced by an external parametrization g, sign-canonicalized
(identifying antipodes) and deduplicated. -/
def quaternionSampleRaw (g : ℕ → Quat) (count : ℕ) : List Quat :=
  ((List.range count).map (fun i => canonSign (g i))).dedup

/-- The three recognized sampling methods. -/
inductive Method where
  | cubochoric
  | haar_euler
  | quaternion
deriving DecidableEq

/-- Method string dispatch; an unrecognized string fails with UnknownMethod. -/
def methodOfString (s : String) : Except Err Method :=
  if s = "cubochoric" then .ok .cubochoric
  else if s = "haar_euler" then .ok .haar_euler
  else if s = "quaternion" then .ok .quaternion
  else .error .UnknownMethod

/-- The externally documented pieces of the pipeline that are not part of this
repository: the three forward transforms, the method-specific resolution
translations for the Euler and quaternion grids (their exact formulas are not
given by the spec), and the fixed internal deduplication threshold. -/
structure Impl where
  cubeMap : ℤ × ℤ × ℤ → Quat
  eulerSteps : ℚ → ℕ × ℕ × ℕ
  eulerMap : ℕ × ℕ × ℕ → Quat
  quatSteps : ℚ → ℕ
  quatMap : ℕ → Quat
  tol : ℚ

/-- A call to the orchestrator: optional resolution, optional explicit density,
method string, and the symmetry operator set already resolved by the external
lookup collaborator. -/
structure Request where
  resolution : Option ℚ
  density : Option ℚ
  method : String
  ops : List Quat

/-- A trivial concrete implementation record for witnesses. -/
def implTriv : Impl :=
  ⟨fun _ => qone, fun _ => (1, 1, 1), fun _ => qone, fun _ => 1, fun _ => qone, 1⟩

/-- A concrete request for witnesses. -/
def reqTriv : Request := ⟨some 2, none, "cubochoric", [qone]⟩

/-- Raw sampling stage of the orchestrator.  Modelled from the spec: exactly one
of resolution and density must be supplied (ConflictingParameters otherwise);
the resolution path goes through the Resolution Translator; the explicit density
path is available for the cubochoric method (the notebook's semi_edge_steps). -/
def rawSample (impl : Impl) (m : Method) (r : Request) : Except Err (List Quat) :=
  match r.resolution, r.density with
  | none, none => .error .ConflictingParameters
  | some _, some _ => .error .ConflictingParameters
  | some θ, none =>
    match m with
    | .cubochoric => (cubochoricSteps θ).map (fun N => cubochoricSampleRaw impl.cubeMap N)
    | .haar_euler =>
      .ok (haarEulerSampleRaw impl.eulerMap (impl.eulerSteps θ).1
        (impl.eulerSteps θ).2.1 (impl.eulerSteps θ).2.2)
    | .quaternion => .ok (quaternionSampleRaw impl.quatMap (impl.quatSteps θ))
  | none, some d =>
    match m with
    | .cubochoric => cubochoricSample impl.cubeMap d
    | _ => .error .InvalidParameter

/-- The Orchestrator.  Modelled from the spec: validate the method string,
produce the raw sample, then reduce to the fundamental zone. -/
def sample (impl : Impl) (r : Request) : Except Err (List Quat) :=
  match methodOfString r.method with
  | .error e => .error e
  | .ok m =>
    match rawSample impl m r with
    | .error e => .error e
    | .ok raw => fzReduce r.ops impl.tol raw

theorem cubochoricSteps_two : cubochoricSteps 2 = Except.ok 67 := by
  unfold cubochoricSteps
  rw [if_pos (by norm_num [thetaMin])]
  have hf : ⌊cubochoricCoeff / ((2 : ℚ) - thetaMin)⌋ = 67 := by
    rw [Int.floor_eq_iff]
    constructor
    · norm_num [cubochoricCoeff, thetaMin]
    · norm_num [cubochoricCoeff, thetaMin]
  rw [hf]
  rfl

theorem cubochoricSteps_three : cubochoricSteps 3 = Except.ok 44 := by
  unfold cubochoricSteps
  rw [if_pos (by norm_num [thetaMin])]
  have hf : ⌊cubochoricCoeff / ((3 : ℚ) - thetaMin)⌋ = 44 := by
    rw [Int.floor_eq_iff]
    constructor
    · norm_num [cubochoricCoeff, thetaMin]
    · norm_num [cubochoricCoeff, thetaMin]
  rw [hf]
  rfl

/-- C2, counterexample to the claim as stated: the translator does accept
θ = 133 > 0.03732 and returns floor(131.97049 / (133 - 0.03732)) = 0, which is
not a positive integer, refuting the claimed positivity of the result. -/
theorem c2_translator_counterexample :
    cubochoricSteps 133 = Except.ok 0 ∧ ¬ 0 < (0 : ℕ) := by
  constructor
  · unfold cubochoricSteps
    rw [if_pos (by norm_num [thetaMin])]
    have hf : ⌊cubochoricCoeff / ((133 : ℚ) - thetaMin)⌋ = 0 := by
      rw [Int.floor_eq_iff]
      constructor
      · norm_num [cubochoricCoeff, thetaMin]
      · norm_num [cubochoricCoeff, thetaMin]
    rw [hf]
    rfl
  · exact lt_irrefl 0

/-- C2 (amended): for every resolution θ, if θ > 0.03732 the translator returns
the natural number floor(131.97049 / (θ - 0.03732)), which is positive exactly
when θ ≤ 132.00781 = 0.03732 + 131.97049; if θ ≤ 0.03732 it fails with
InvalidResolution.  The translator is a pure function. -/
theorem c2_translator (θ : ℚ) :
    (thetaMin < θ →
      cubochoricSteps θ = .ok (Int.toNat ⌊cubochoricCoeff / (θ - thetaMin)⌋) ∧
        (0 < Int.toNat ⌊cubochoricCoeff / (θ - thetaMin)⌋ ↔
          θ ≤ thetaMin + cubochoricCoeff)) ∧
      (θ ≤ thetaMin → cubochoricSteps θ = .error .InvalidResolution) := by
  constructor
  · intro h
    have hd : 0 < θ - thetaMin := by linarith
    refine ⟨by unfold cubochoricSteps; rw [if_pos h], ?_, ?_⟩
    · intro hpos
      have h1 : (1 : ℤ) ≤ ⌊cubochoricCoeff / (θ - thetaMin)⌋ := by omega
      have h2 : (1 : ℚ) ≤ cubochoricCoeff / (θ - thetaMin) := by
        exact_mod_cast Int.le_floor.mp h1
      rw [le_div_iff₀ hd] at h2
      linarith
    · intro hle
      have h2 : (1 : ℚ) ≤ cubochoricCoeff / (θ - thetaMin) := by
        rw [le_div_iff₀ hd]
        linarith
      have h1 : (1 : ℤ) ≤ ⌊cubochoricCoeff / (θ - thetaMin)⌋ :=
        Int.le_floor.mpr (by exact_mod_cast h2)
      omega
  · intro h
    unfold cubochoricSteps
    rw [if_neg (not_lt.mpr h)]

/-- Witness for the amended C2 at the concrete resolutions 2 and 0.003. -/
theorem c2_translator_witness :
    cubochoricSteps 2 = Except.ok 67 ∧
      cubochoricSteps (3 / 1000) = Except.error Err.InvalidResolution := by
  constructor
  · have h := ((c2_translator 2).1 (by norm_num [thetaMin])).1
    rw [h]
    have hf : ⌊cubochoricCoeff / ((2 : ℚ) - thetaMin)⌋ = 67 := by
      rw [Int.floor_eq_iff]
      constructor
      · norm_num [cubochoricCoeff, thetaMin]
      · norm_num [cubochoricCoeff, thetaMin]
    rw [hf]
    rfl
  · exact (c2_translator (3 / 1000)).2 (by norm_num [thetaMin])

theorem eulerGrid_length (na nb nc : ℕ) :
    (eulerGrid na nb nc).length = na * nb * nc := by
  unfold eulerGrid
  rw [List.length_flatMap]
  simp only [Function.comp_def]
  have hinner : ∀ i : ℕ,
      ((List.range nb).flatMap (fun j => (List.range nc).map (fun k => (i, j, k)))).length
        = nb * nc := by
    intro i
    rw [List.length_flatMap]
    simp only [Function.comp_def]
    have hmap : ((List.range nb).map fun j =>
        ((List.range nc).map fun k => (i, j, k)).length)
          = (List.range nb).map (fun _ => nc) := by
      refine List.map_congr_left fun j _ => ?_
      rw [List.length_map, List.length_range]
    rw [hmap, List.map_const', List.sum_replicate, smul_eq_mul, List.length_range]
  have houter : ((List.range na).map fun i =>
      ((List.range nb).flatMap fun j => (List.range nc).map fun k => (i, j, k)).length)
        = (List.range na).map (fun _ => nb * nc) :=
    List.map_congr_left fun i _ => hinner i
  rw [houter, List.map_const', List.sum_replicate, smul_eq_mul, List.length_range]
  ring

/-- The spec requirement (section 4.1) on the external Euler and quaternion
resolution translators: the derived step counts are monotonically decreasing in
the resolution (finer resolution gives more points).  Their exact formulas are
method-specific and external to this repository. -/
def translatorsMonotone (impl : Impl) : Prop :=
  ∀ θ1 θ2 : ℚ, θ1 < θ2 →
    ((impl.eulerSteps θ2).1 ≤ (impl.eulerSteps θ1).1 ∧
      (impl.eulerSteps θ2).2.1 ≤ (impl.eulerSteps θ1).2.1 ∧
      (impl.eulerSteps θ2).2.2 ≤ (impl.eulerSteps θ1).2.2) ∧
    impl.quatSteps θ2 ≤ impl.quatSteps θ1

/-- C6 (amended): for every fixed method, the translated density parameter is
monotonically decreasing in θ and therefore so is the method's raw candidate
grid size: for cubochoric this is derived from the translation formula
(semi-edge steps N and grid (2N+1)^3 both antitone in θ); for haar_euler and
quaternion, whose translation formulas are external, it holds under the spec's
stated monotonicity requirement on them.  The final post-reduction sample size
need not be monotone (see the counterexample). -/
theorem c6_translator_monotone (impl : Impl) (himpl : translatorsMonotone impl)
    (θ1 θ2 : ℚ) (h1 : thetaMin < θ1) (h12 : θ1 < θ2) :
    (∃ n1 n2 : ℕ, cubochoricSteps θ1 = .ok n1 ∧ cubochoricSteps θ2 = .ok n2 ∧
      n2 ≤ n1 ∧ (cubeGrid n2).length ≤ (cubeGrid n1).length) ∧
      (eulerGrid (impl.eulerSteps θ2).1 (impl.eulerSteps θ2).2.1
          (impl.eulerSteps θ2).2.2).length ≤
        (eulerGrid (impl.eulerSteps θ1).1 (impl.eulerSteps θ1).2.1
          (impl.eulerSteps θ1).2.2).length ∧
      (List.range (impl.quatSteps θ2)).length ≤
        (List.range (impl.quatSteps θ1)).length := by
  obtain ⟨⟨hea, heb, hec⟩, hq⟩ := himpl θ1 θ2 h12
  refine ⟨?_, ?_, ?_⟩
  · have h2 : thetaMin < θ2 := h1.trans h12
    have hmono : cubochoricCoeff / (θ2 - thetaMin) ≤
        cubochoricCoeff / (θ1 - thetaMin) := by
      rw [div_le_div_iff₀ (by linarith) (by linarith)]
      have hc : (0 : ℚ) ≤ cubochoricCoeff := by norm_num [cubochoricCoeff]
      nlinarith
    have hfl : ⌊cubochoricCoeff / (θ2 - thetaMin)⌋ ≤
        ⌊cubochoricCoeff / (θ1 - thetaMin)⌋ := Int.floor_mono hmono
    have hkey : Int.toNat ⌊cubochoricCoeff / (θ2 - thetaMin)⌋ ≤
        Int.toNat ⌊cubochoricCoeff / (θ1 - thetaMin)⌋ := by omega
    refine ⟨_, _, by unfold cubochoricSteps; rw [if_pos h1],
      by unfold cubochoricSteps; rw [if_pos h2], hkey, ?_⟩
    rw [cubeGrid_length, cubeGrid_length]
    unfold cubochoricGridCount
    exact Nat.pow_le_pow_left (by omega) 3
  · rw [eulerGrid_length, eulerGrid_length]
    exact Nat.mul_le_mul (Nat.mul_le_mul hea heb) hec
  · rw [List.length_range, List.length_range]
    exact hq

/-- Witness for the amended C6 at the concrete resolutions 2 < 3 with the
constant-translator implementation. -/
theorem c6_translator_monotone_witness :
    (∃ n1 n2 : ℕ, cubochoricSteps 2 = .ok n1 ∧ cubochoricSteps 3 = .ok n2 ∧
      n2 ≤ n1 ∧ (cubeGrid n2).length ≤ (cubeGrid n1).length) ∧
      (eulerGrid (implTriv.eulerSteps 3).1 (implTriv.eulerSteps 3).2.1
          (implTriv.eulerSteps 3).2.2).length ≤
        (eulerGrid (implTriv.eulerSteps 2).1 (implTriv.eulerSteps 2).2.1
          (implTriv.eulerSteps 2).2.2).length ∧
      (List.range (implTriv.quatSteps 3)).length ≤
        (List.range (implTriv.quatSteps 2)).length :=
  c6_translator_monotone implTriv
    (by
      unfold translatorsMonotone implTriv
      intro θ1 θ2 h12
      norm_num)
    2 3 (by norm_num [thetaMin]) (by norm_num)

/-- C10, counterexample to the claim as stated: for resolution θ = 3 the
translator yields semi-edge step count 44, not 67, so the resolution-3 path and
the explicit semi_edge_steps = 67 path sample cubes of different sizes
(89^3 versus 135^3 grid points). -/
theorem c10_counterexample :
    cubochoricSteps 3 = Except.ok 44 ∧ (44 : ℕ) ≠ 67 ∧
      (cubeGrid 44).length ≠ (cubeGrid 67).length := by
  refine ⟨cubochoricSteps_three, by decide, ?_⟩
  rw [cubeGrid_length, cubeGrid_length]
  decide

/-- C10 (amended): the equivalence claimed by the notebook holds at resolution 2
(the value the notebook's own prose states), not 3: the translator maps θ = 2 to
exactly 67 semi-edge steps, so for every implementation and operator set the
resolution-2 call and the semi_edge_steps = 67 call coincide. -/
theorem c10_equivalent_paths (impl : Impl) (G : List Quat) :
    sample impl ⟨some 2, none, "cubochoric", G⟩ =
      sample impl ⟨none, some 67, "cubochoric", G⟩ := by
  have h67 : cubochoricSample impl.cubeMap 67 =
      Except.ok (cubochoricSampleRaw impl.cubeMap 67) := by
    unfold cubochoricSample
    rw [if_pos ⟨rfl, by decide⟩]
    rfl
  simp only [sample, methodOfString, rawSample, cubochoricSteps_two, h67, Except.map]
  rfl

theorem reduceStep_nil (G : List Quat) (t : ℚ) (q : Quat) :
    reduceStep G t [] q = [canonical G q] := rfl

/-- A reduction pass never empties a non-empty accumulator. -/
theorem foldl_reduceStep_ne_nil (G : List Quat) (t : ℚ) :
    ∀ (L acc : List Quat), acc ≠ [] → L.foldl (reduceStep G t) acc ≠ [] := by
  intro L
  induction L with
  | nil =>
    intro acc h
    simpa using h
  | cons q L ih =>
    intro acc h
    rw [List.foldl_cons]
    refine ih _ ?_
    rcases reduceStep_cases G t acc q with hs | ⟨hs, _⟩
    · rw [hs]
      exact h
    · rw [hs]
      simp

/-- C3 (amended): for a valid operator set (identity member, unit operators) and
a threshold at most 1, the reduced output of a non-empty raw candidate sequence
is always non-empty; and whenever the identity leads the raw sequence - the
distinguished first element of the output contract - the output contains the
identity exactly once, as its first element.  When the identity is merely
contained mid-sequence, an earlier retained representative within the tolerance
can drop it. -/
theorem c3_identity_amended {G : List Quat} {t : ℚ} {S : List Quat}
    (hGone : qone ∈ G) (hGu : ∀ g ∈ G, normSq g = 1) (ht : t ≤ 1) :
    (S ≠ [] → ∃ out, fzReduce G t S = .ok out ∧ out ≠ []) ∧
      (S.head? = some qone → ∃ out, fzReduce G t S = .ok out ∧ out ≠ [] ∧
        out.head? = some qone ∧ out.count qone = 1) := by
  constructor
  · intro hS
    refine ⟨reduceCore G t S, by unfold fzReduce; rw [if_pos hGone], ?_⟩
    cases S with
    | nil => exact absurd rfl hS
    | cons s S2 =>
      unfold reduceCore
      rw [List.foldl_cons]
      refine foldl_reduceStep_ne_nil G t S2 _ ?_
      rcases reduceStep_cases G t [] s with hs | ⟨hs, _⟩
      · rw [reduceStep_nil] at hs
        exact absurd hs.symm (by simp)
      · rw [hs]
        simp
  · intro hS
    cases S with
    | nil => simp at hS
    | cons s S2 =>
      have hs : s = qone := by simpa using hS
      subst hs
      have hstep0 : reduceStep G t [] qone = [qone] := by
        rw [reduceStep_nil, canonical_qone hGone hGu]
      have hcore : reduceCore G t (qone :: S2) = S2.foldl (reduceStep G t) [qone] := by
        unfold reduceCore
        rw [List.foldl_cons, hstep0]
      have hrest := reduceCore_keep_qone G t ht S2 [qone] rfl (by simp)
      refine ⟨reduceCore G t (qone :: S2), ?_, ?_, ?_, ?_⟩
      · unfold fzReduce
        rw [if_pos hGone]
      · rw [hcore]
        intro hcon
        have h1 := hrest.1
        rw [hcon] at h1
        simp at h1
      · rw [hcore]
        exact hrest.1
      · rw [hcore]
        exact hrest.2

/-- Witness for the amended C3 with the trivial proper point group 1. -/
theorem c3_identity_amended_witness :
    (∃ out, fzReduce [qone] 1 [qone] = Except.ok out ∧ out ≠ []) ∧
      (∃ out, fzReduce [qone] 1 [qone] = Except.ok out ∧ out ≠ [] ∧
        out.head? = some qone ∧ out.count qone = 1) := by
  have h := @c3_identity_amended [qone] 1 [qone] (List.mem_singleton.mpr rfl)
    (by
      intro g hg
      rw [List.mem_singleton] at hg
      rw [hg, normSq_qone])
    (le_refl 1)
  exact ⟨h.1 (by simp), h.2 rfl⟩

/-- Extracting the validation and the core value from a successful reduction. -/
theorem fzReduce_ok_inv {G : List Quat} {t : ℚ} {S R : List Quat}
    (hok : fzReduce G t S = .ok R) : qone ∈ G ∧ R = reduceCore G t S := by
  by_cases hGone : qone ∈ G
  · refine ⟨hGone, ?_⟩
    unfold fzReduce at hok
    rw [if_pos hGone] at hok
    injection hok with h
    exact h.symm
  · unfold fzReduce at hok
    rw [if_neg hGone] at hok
    exact Except.noConfusion hok

/-- C4: any two distinct retained orientations of a successful reduction have
inner product below the closeness threshold (relative rotation angle at least
the tolerance ε) and belong to different symmetry classes: no two retained
orientations are symmetry-equivalent. -/
theorem c4_no_duplicates {G : List Quat} {t : ℚ} {S R : List Quat}
    (hG : GroupLike G) (hok : fzReduce G t S = .ok R) :
    ∀ a ∈ R, ∀ b ∈ R, a ≠ b → qdot a b < t ∧ ¬ symmEquiv G a b := by
  obtain ⟨hGone, hR⟩ := fzReduce_ok_inv hok
  subst hR
  intro a ha b hb hne
  constructor
  · exact not_le.mp (reduceCore_separated G t S a ha b hb hne)
  · exact reduceCore_not_equiv hG (List.ne_nil_of_mem hGone) t S a ha b hb hne

/-- The quaternion i, a 180 degree rotation about x. -/
def qi : Quat := ⟨0, 1, 0, 0⟩

theorem canonical_single (q : Quat) : canonical [qone] q = canonSign q := by
  unfold canonical orbit bestOf
  simp [qone_qmul, pick]

theorem groupLike_single : GroupLike [qone] := by
  intro g hg
  rw [List.mem_singleton] at hg
  subst hg
  have hmap : ([qone].map fun h => canonSign (qmul h qone)) = [qone] := by
    simp [qmul_qone, canonSign_qone]
  rw [hmap]

theorem canonSign_qi : canonSign qi = qi := by
  unfold canonSign
  rw [if_neg]
  decide

theorem fzReduce_single_pair :
    fzReduce [qone] 1 [qone, qi] = Except.ok [qone, qi] := by
  unfold fzReduce
  rw [if_pos (List.mem_singleton.mpr rfl)]
  have hs1 : reduceStep [qone] 1 [] qone = [qone] := by
    rw [reduceStep_nil, canonical_single, canonSign_qone]
  have hcqi : canonical [qone] qi = qi := by
    rw [canonical_single, canonSign_qi]
  have hs2 : reduceStep [qone] 1 [qone] qi = [qone, qi] := by
    unfold reduceStep
    rw [hcqi]
    have hnc : ¬ close 1 qone qi := by norm_num [close, qdot, qone, qi]
    simp [hnc]
  unfold reduceCore
  rw [List.foldl_cons, hs1, List.foldl_cons, hs2, List.foldl_nil]

/-- Witness for C4: in the reduced pair for the trivial group, the identity and
the retained 180 degree rotation are far apart and inequivalent. -/
theorem c4_no_duplicates_witness :
    qdot qone qi < 1 ∧ ¬ symmEquiv [qone] qone qi := by
  have h := c4_no_duplicates groupLike_single fzReduce_single_pair
  refine h qone (by simp) qi (by simp) ?_
  intro hcon
  have : (1 : ℚ) = 0 := congrArg Quat.w hcon
  norm_num at this

/-- C5: the Fundamental Zone Reducer is idempotent: reducing a successful
reduction's output again returns it unchanged. -/
theorem c5_reducer_idempotent {G : List Quat} {t : ℚ} {S R : List Quat}
    (hG : GroupLike G) (hok : fzReduce G t S = .ok R) :
    fzReduce G t R = .ok R := by
  obtain ⟨hGone, hR⟩ := fzReduce_ok_inv hok
  subst hR
  unfold fzReduce
  rw [if_pos hGone, reduceCore_idem hG (List.ne_nil_of_mem hGone)]

/-- Witness for C5 on a concrete reduction for the trivial group. -/
theorem c5_reducer_idempotent_witness :
    fzReduce [qone] 1 [qone, qi] = Except.ok [qone, qi] :=
  c5_reducer_idempotent groupLike_single fzReduce_single_pair

/-- C7: the pipeline is deterministic: two calls whose resolution, density,
method and operator set coincide produce identical output sequences.  The whole
model is a pure function of its inputs; no randomness or execution order enters. -/
theorem c7_deterministic (impl : Impl) (r1 r2 : Request)
    (hres : r1.resolution = r2.resolution) (hden : r1.density = r2.density)
    (hmet : r1.method = r2.method) (hops : r1.ops = r2.ops) :
    sample impl r1 = sample impl r2 := by
  have h : r1 = r2 := by
    cases r1
    cases r2
    simp only at hres hden hmet hops
    rw [hres, hden, hmet, hops]
  rw [h]

theorem c7_deterministic_witness : sample implTriv reqTriv = sample implTriv reqTriv :=
  c7_deterministic implTriv reqTriv reqTriv rfl rfl rfl rfl

theorem cubeGrid_zero : cubeGrid 0 = [((0 : ℤ), (0 : ℤ), (0 : ℤ))] := by decide

/-- C8: the cubochoric sampler maps semi-edge step count 0 to exactly the single
identity quaternion (the cube's center maps to rotation angle 0), and rejects
every negative or non-integer density eagerly with InvalidParameter, returning
no partial result. -/
theorem c8_cubochoric_edge_cases (f : ℤ × ℤ × ℤ → Quat)
    (hf0 : f ((0 : ℤ), (0 : ℤ), (0 : ℤ)) = qone) :
    cubochoricSample f 0 = .ok [qone] ∧
      ∀ n : ℚ, (n < 0 ∨ n.den ≠ 1) → cubochoricSample f n = .error .InvalidParameter := by
  constructor
  · unfold cubochoricSample
    rw [if_pos ⟨rfl, by decide⟩]
    have h0 : (0 : ℚ).num.toNat = 0 := rfl
    rw [h0]
    unfold cubochoricSampleRaw
    rw [cubeGrid_zero]
    simp only [List.map_cons, List.map_nil]
    rw [hf0, canonSign_qone]
    simp
  · intro n hn
    unfold cubochoricSample
    rw [if_neg]
    rintro ⟨hden, hnum⟩
    rcases hn with hn | hn
    · have : n.num < 0 := Rat.num_neg.mpr hn
      omega
    · exact hn hden

/-- Witness for C8 with the constant-identity transform at densities 0 and -1. -/
theorem c8_cubochoric_edge_cases_witness :
    cubochoricSample (fun _ => qone) 0 = Except.ok [qone] ∧
      cubochoricSample (fun _ => qone) (-1) = Except.error Err.InvalidParameter := by
  have h := c8_cubochoric_edge_cases (fun _ => qone) rfl
  exact ⟨h.1, h.2 (-1) (Or.inl (by norm_num))⟩

theorem mem_canon_dedup {α : Type} (h : α → Quat) (grid : List α)
    (hu : ∀ p, normSq (h p) = 1) :
    ∀ q ∈ (grid.map fun p => canonSign (h p)).dedup, normSq q = 1 ∧ 0 ≤ q.w := by
  intro q hq
  rw [List.mem_dedup] at hq
  obtain ⟨p, _, hpq⟩ := List.mem_map.mp hq
  constructor
  · rw [← hpq, normSq_canonSign, hu]
  · rw [← hpq]
    exact canonSign_w_nonneg _

/-- C9: whenever the forward transforms produce unit quaternions (the
measure-preserving maps of the references are unit valued), every quaternion in
the raw output of each of the three samplers has unit norm exactly (hence within
the stated 1e-6 tolerance) and a sign-canonicalized scalar part w ≥ 0. -/
theorem c9_raw_invariants (f : ℤ × ℤ × ℤ → Quat) (e : ℕ × ℕ × ℕ → Quat)
    (g : ℕ → Quat) (hf : ∀ p, normSq (f p) = 1) (he : ∀ p, normSq (e p) = 1)
    (hg : ∀ i, normSq (g i) = 1) :
    (∀ N, ∀ q ∈ cubochoricSampleRaw f N, normSq q = 1 ∧ 0 ≤ q.w) ∧
      (∀ na nb nc, ∀ q ∈ haarEulerSampleRaw e na nb nc, normSq q = 1 ∧ 0 ≤ q.w) ∧
      (∀ c, ∀ q ∈ quaternionSampleRaw g c, normSq q = 1 ∧ 0 ≤ q.w) :=
  ⟨fun N => mem_canon_dedup f (cubeGrid N) hf,
    fun na nb nc => mem_canon_dedup e (eulerGrid na nb nc) he,
    fun c => mem_canon_dedup g (List.range c) hg⟩

/-- Witness for C9 with the constant-identity transforms on small grids. -/
theorem c9_raw_invariants_witness : normSq qone = 1 ∧ 0 ≤ qone.w := by
  have h := c9_raw_invariants (fun _ => qone) (fun _ => qone) (fun _ => qone)
    (fun _ => normSq_qone) (fun _ => normSq_qone) (fun _ => normSq_qone)
  refine h.1 0 qone ?_
  unfold cubochoricSampleRaw
  rw [cubeGrid_zero]
  simp [canonSign_qone]

theorem reduceStep_drop {G : List Quat} {t : ℚ} {acc : List Quat} {q r : Quat}
    (hr : r ∈ acc) (hc : close t r (canonical G q)) : reduceStep G t acc q = acc := by
  have hany : acc.any (fun r2 => decide (close t r2 (canonical G q))) = true := by
    rw [List.any_eq_true]
    exact ⟨r, hr, decide_eq_true hc⟩
  unfold reduceStep
  rw [if_pos hany]

theorem reduceStep_keep {G : List Quat} {t : ℚ} {acc : List Quat} {q : Quat}
    (h : ∀ r ∈ acc, ¬ close t r (canonical G q)) :
    reduceStep G t acc q = acc ++ [canonical G q] := by
  have hne : ¬ (acc.any (fun r2 => decide (close t r2 (canonical G q))) = true) := by
    intro hany
    obtain ⟨r, hr, hd⟩ := List.any_eq_true.mp hany
    exact h r hr (of_decide_eq_true hd)
  unfold reduceStep
  rw [if_neg hne]

theorem canonSign_of_w_pos {a : Quat} (h : 0 < a.w) : canonSign a = a := by
  unfold canonSign
  rw [if_neg]
  intro hk
  simp only [keyLt, qzero] at hk
  rcases hk with hk | ⟨hk, _⟩ <;> linarith

/-- A unit quaternion close to the identity (half-angle cosine 3/5). -/
def qa : Quat := ⟨3 / 5, 4 / 5, 0, 0⟩

/-- A unit quaternion close to the identity but far from qa. -/
def qc : Quat := ⟨3 / 5, -4 / 5, 0, 0⟩

theorem canonSign_qa : canonSign qa = qa :=
  canonSign_of_w_pos (by norm_num [qa])

theorem canonSign_qc : canonSign qc = qc :=
  canonSign_of_w_pos (by norm_num [qc])

theorem qone_ne_qa : qone ≠ qa := by
  intro h
  have h2 := congrArg Quat.w h
  norm_num [qone, qa] at h2

theorem qone_ne_qc : qone ≠ qc := by
  intro h
  have h2 := congrArg Quat.w h
  norm_num [qone, qc] at h2

theorem qa_ne_qc : qa ≠ qc := by
  intro h
  have h2 := congrArg Quat.x h
  norm_num [qa, qc] at h2

/-- The quaternion pipeline path, computed: validation, translation, sampling,
reduction. -/
theorem sample_quaternion (impl : Impl) (θ : ℚ) (ops : List Quat) :
    sample impl ⟨some θ, none, "quaternion", ops⟩ =
      fzReduce ops impl.tol (quaternionSampleRaw impl.quatMap (impl.quatSteps θ)) :=
  rfl

/-- A spec-conforming external parametrization whose second sample point is the
identity: the raw output contains the identity without leading with it. -/
def implC3 : Impl :=
  ⟨fun _ => qone, fun _ => (1, 1, 1), fun _ => qone, fun _ => 2,
    fun n => if n = 0 then qa else qone, 1 / 2⟩

theorem implC3_raw : quaternionSampleRaw implC3.quatMap 2 = [qa, qone] := by
  have hr : List.range 2 = [0, 1] := rfl
  have h0 : implC3.quatMap 0 = qa := rfl
  have h1 : implC3.quatMap 1 = qone := rfl
  unfold quaternionSampleRaw
  rw [hr]
  simp only [List.map_cons, List.map_nil, h0, h1, canonSign_qa, canonSign_qone]
  rw [List.dedup_cons_of_not_mem (by simp [Ne.symm qone_ne_qa]),
    List.dedup_cons_of_not_mem (by simp), List.dedup_nil]

/-- C3, counterexample to the claim as stated: a valid input (valid resolution,
recognized method, operator set [qone] of the proper point group 1) whose
spec-conforming unit-valued external parametrization places the identity second
in the raw sequence; the first retained representative qa lies within the
tolerance of the identity, so the final output [qa] does not contain the
identity at all, refuting the claimed exactly-once membership.  The cubochoric
grid likewise does not lead with the center point, whose image is the identity. -/
theorem c3_counterexample :
    normSq qa = 1 ∧ (1 : ℚ) / 2 ≤ 1 ∧
      quaternionSampleRaw implC3.quatMap (implC3.quatSteps 3) = [qa, qone] ∧
      sample implC3 ⟨some 3, none, "quaternion", [qone]⟩ = Except.ok [qa] ∧
      qone ∉ [qa] ∧ (cubeGrid 1).head? = some ((-1 : ℤ), (-1 : ℤ), (-1 : ℤ)) := by
  refine ⟨by norm_num [normSq, qa], by norm_num, ?_, ?_, by simp [qone_ne_qa], by decide⟩
  · have hs : implC3.quatSteps 3 = 2 := rfl
    rw [hs, implC3_raw]
  · rw [sample_quaternion]
    have hs : implC3.quatSteps 3 = 2 := rfl
    have htl : implC3.tol = 1 / 2 := rfl
    rw [hs, htl, implC3_raw]
    unfold fzReduce
    rw [if_pos (List.mem_singleton.mpr rfl)]
    have hcq : close (1 / 2) qa (canonical [qone] qone) := by
      rw [canonical_single, canonSign_qone]
      norm_num [close, qdot, qa, qone]
    unfold reduceCore
    rw [List.foldl_cons, reduceStep_nil, canonical_single, canonSign_qa,
      List.foldl_cons, reduceStep_drop (List.mem_singleton.mpr rfl) hcq,
      List.foldl_nil]

/-- A spec-conforming external parametrization for which the finer resolution
yields a smaller final sample: the extra, finer candidates re-order the
deduplicated sequence so that the identity is processed first and absorbs both
other representatives. -/
def implC6 : Impl :=
  ⟨fun _ => qone, fun _ => (1, 1, 1), fun _ => qone,
    fun θ => if θ ≤ 2 then 5 else 2,
    fun n => if n = 0 then qa else if n = 1 then qc else if n = 2 then qone
      else if n = 3 then qa else qc,
    1 / 2⟩

theorem implC6_monotone : translatorsMonotone implC6 := by
  intro θ1 θ2 h12
  refine ⟨⟨le_refl 1, le_refl 1, le_refl 1⟩, ?_⟩
  show (if θ2 ≤ 2 then 5 else 2) ≤ (if θ1 ≤ 2 then 5 else 2)
  by_cases h2 : θ2 ≤ 2
  · rw [if_pos h2, if_pos (by linarith)]
  · rw [if_neg h2]
    by_cases h1 : θ1 ≤ 2
    · rw [if_pos h1]
      norm_num
    · rw [if_neg h1]

theorem implC6_steps2 : implC6.quatSteps 2 = 5 := by
  show (if (2 : ℚ) ≤ 2 then 5 else 2) = 5
  rw [if_pos (le_refl (2 : ℚ))]

theorem implC6_steps3 : implC6.quatSteps 3 = 2 := by
  show (if (3 : ℚ) ≤ 2 then 5 else 2) = 2
  rw [if_neg (by norm_num)]

theorem implC6_raw_fine : quaternionSampleRaw implC6.quatMap 5 = [qone, qa, qc] := by
  have hr : List.range 5 = [0, 1, 2, 3, 4] := rfl
  have h0 : implC6.quatMap 0 = qa := rfl
  have h1 : implC6.quatMap 1 = qc := rfl
  have h2 : implC6.quatMap 2 = qone := rfl
  have h3 : implC6.quatMap 3 = qa := rfl
  have h4 : implC6.quatMap 4 = qc := rfl
  unfold quaternionSampleRaw
  rw [hr]
  simp only [List.map_cons, List.map_nil, h0, h1, h2, h3, h4, canonSign_qa,
    canonSign_qc, canonSign_qone]
  rw [List.dedup_cons_of_mem (by simp), List.dedup_cons_of_mem (by simp),
    List.dedup_cons_of_not_mem (by simp [qone_ne_qa, qone_ne_qc]),
    List.dedup_cons_of_not_mem (by simp [qa_ne_qc]),
    List.dedup_cons_of_not_mem (by simp), List.dedup_nil]

theorem implC6_raw_coarse : quaternionSampleRaw implC6.quatMap 2 = [qa, qc] := by
  have hr : List.range 2 = [0, 1] := rfl
  have h0 : implC6.quatMap 0 = qa := rfl
  have h1 : implC6.quatMap 1 = qc := rfl
  unfold quaternionSampleRaw
  rw [hr]
  simp only [List.map_cons, List.map_nil, h0, h1, canonSign_qa, canonSign_qc]
  rw [List.dedup_cons_of_not_mem (by simp [qa_ne_qc]),
    List.dedup_cons_of_not_mem (by simp), List.dedup_nil]

theorem c6_reduce_fine : fzReduce [qone] (1 / 2) [qone, qa, qc] = Except.ok [qone] := by
  unfold fzReduce
  rw [if_pos (List.mem_singleton.mpr rfl)]
  have hca : close (1 / 2) qone (canonical [qone] qa) := by
    rw [canonical_single, canonSign_qa]
    norm_num [close, qdot, qa, qone]
  have hcc : close (1 / 2) qone (canonical [qone] qc) := by
    rw [canonical_single, canonSign_qc]
    norm_num [close, qdot, qc, qone]
  unfold reduceCore
  rw [List.foldl_cons, reduceStep_nil, canonical_single, canonSign_qone,
    List.foldl_cons, reduceStep_drop (List.mem_singleton.mpr rfl) hca,
    List.foldl_cons, reduceStep_drop (List.mem_singleton.mpr rfl) hcc,
    List.foldl_nil]

theorem c6_reduce_coarse : fzReduce [qone] (1 / 2) [qa, qc] = Except.ok [qa, qc] := by
  unfold fzReduce
  rw [if_pos (List.mem_singleton.mpr rfl)]
  have hkeep : ∀ r ∈ [qa], ¬ close (1 / 2) r (canonical [qone] qc) := by
    intro r hrm
    rw [List.mem_singleton] at hrm
    subst hrm
    rw [canonical_single, canonSign_qc]
    norm_num [close, qdot, qa, qc]
  unfold reduceCore
  rw [List.foldl_cons, reduceStep_nil, canonical_single, canonSign_qa,
    List.foldl_cons, reduceStep_keep hkeep, List.foldl_nil,
    canonical_single, canonSign_qc]
  rfl

/-- C6, counterexample to the claim as stated: a spec-conforming implementation
(monotone external translator, unit-valued parametrization) for which the finer
resolution 2 < 3 produces a strictly smaller final sample (size 1 versus 2):
with deduplication keeping last occurrences and reduction retaining greedily,
the extra finer candidates re-order the sequence so one representative absorbs
the rest, so final sample size is not monotone even though the translated
density parameter is. -/
theorem c6_counterexample :
    translatorsMonotone implC6 ∧ implC6.quatSteps 3 ≤ implC6.quatSteps 2 ∧
      normSq qa = 1 ∧ normSq qc = 1 ∧
      sample implC6 ⟨some 2, none, "quaternion", [qone]⟩ = Except.ok [qone] ∧
      sample implC6 ⟨some 3, none, "quaternion", [qone]⟩ = Except.ok [qa, qc] ∧
      ([qone] : List Quat).length < ([qa, qc] : List Quat).length := by
  refine ⟨implC6_monotone, ?_, by norm_num [normSq, qa], by norm_num [normSq, qc],
    ?_, ?_, by simp⟩
  · rw [implC6_steps2, implC6_steps3]
    norm_num
  · rw [sample_quaternion, implC6_steps2]
    have htl : implC6.tol = 1 / 2 := rfl
    rw [htl, implC6_raw_fine]
    exact c6_reduce_fine
  · rw [sample_quaternion, implC6_steps3]
    have htl : implC6.tol = 1 / 2 := rfl
    rw [htl, implC6_raw_coarse]
    exact c6_reduce_coarse

/-- Witness for the amended C10 at a concrete implementation and operator set. -/
theorem c10_equivalent_paths_witness :
    sample implTriv ⟨some 2, none, "cubochoric", [qone]⟩ =
      sample implTriv ⟨none, some 67, "cubochoric", [qone]⟩ :=
  c10_equivalent_paths implTriv [qone]

end OrientationSampling
